import Mathlib

/-!
Verification of the POI classification engine of the osm-opening-hours demo
repository. The definitions below are a shallow embedding of the Lua flex
script used by the data pipeline (rule-index construction `poi_lookup`,
`matches_rule`, `find_poi_category`, `process_poi`, `osm2pgsql.process_way`).

A Lua tag table is embedded as a list of key/value pairs in enumeration
order; `pairs` iteration over the table is list iteration, table indexing
`tags[key]` is `Tags.get`. Lua truthiness on tag values is key presence
(every string, including the empty string, is truthy in Lua). The rule
table `poi_mapping` is a parameter: it is loaded from a generated data file
(`require('poi_mapping')`) whose contents are external data in the format
given by the spec (an ordered list of classes, each with match rules).
Geometry construction and `os.date` timestamp formatting are external
collaborators and are not modelled; the timestamp is passed through
unformatted.
-/

namespace OsmPoi

/-- A tag mapping as enumerated by Lua's `pairs`: key/value pairs in
enumeration order. -/
abbrev Tags := List (String × String)

/-- Lua table indexing `tags[key]`: the value stored at `key`, or `nil`
(`none`) when the key is absent. -/
def Tags.get (tags : Tags) (k : String) : Option String :=
  (tags.find? (fun p => p.1 == k)).map (fun p => p.2)

/-- Removal of a key from a tag table (used by `grab_tag`). -/
def Tags.erase (tags : Tags) (k : String) : Tags :=
  tags.filter (fun p => p.1 != k)

/-- osm2pgsql's `object:grab_tag(key)`: returns the tag value of `key` and
removes that tag from the object's tag table. -/
def grab_tag (tags : Tags) (k : String) : Option String × Tags :=
  (Tags.get tags k, Tags.erase tags k)

/-- A match rule: an ordered sequence of (key, expected-value) pairs, where
the expected value `*` is the wildcard. -/
abbrev MatchRule := List (String × String)

/-- One entry of the `poi_mapping` rule table: a class name with its
alternative match rules. The source fields `class` and `matches` are named
`cls` and `matches_` here (both are reserved words in Lean). -/
structure Category where
  cls : String
  matches_ : List MatchRule
deriving DecidableEq, Repr

/-- `compute_specificity(match)`: the number of pairs of a rule whose
expected value is not the wildcard `*`. -/
def compute_specificity (rule : MatchRule) : Nat :=
  (rule.filter (fun pair => pair.2 != "*")).length

/-- An entry of a `poi_lookup` bucket, as built by the loader loop:
the rule (source field `match`), its class and its precomputed
specificity. -/
structure Candidate where
  rule : MatchRule
  cls : String
  specificity : Nat
deriving DecidableEq, Repr

/-- The key of a rule's first pair, `match[1][1]` in the source: the key the
rule is registered under. Indexing an empty rule raises a Lua error at load
time; the theorems about index construction therefore assume every rule is
nonempty, and the `""` result below is never relied upon. -/
def firstKey (rule : MatchRule) : String :=
  match rule with
  | [] => ""
  | pair :: _ => pair.1

/-- All rules of the table flattened in declaration order, each paired with
its class and specificity — the entries the loader loop inserts into
`poi_lookup`. -/
def candidates (mapping : List Category) : List Candidate :=
  mapping.flatMap (fun cat =>
    cat.matches_.map (fun rule => ⟨rule, cat.cls, compute_specificity rule⟩))

/-- The comparison the `table.sort` call establishes on each bucket:
`a` may precede `b` iff `a` has strictly higher specificity, or equal
specificity and at least as many pairs. (This is the reflexive closure of
the strict comparator passed to `table.sort`.) -/
def candLE (a b : Candidate) : Prop :=
  b.specificity < a.specificity ∨
    (a.specificity = b.specificity ∧ b.rule.length ≤ a.rule.length)

instance : DecidableRel candLE := fun a b =>
  inferInstanceAs (Decidable (b.specificity < a.specificity ∨
    (a.specificity = b.specificity ∧ b.rule.length ≤ a.rule.length)))

instance : IsTotal Candidate candLE :=
  ⟨fun a b => by
    unfold candLE
    rcases Nat.lt_trichotomy a.specificity b.specificity with h | h | h
    · exact Or.inr (Or.inl h)
    · rcases Nat.le_total b.rule.length a.rule.length with hl | hl
      · exact Or.inl (Or.inr ⟨h, hl⟩)
      · exact Or.inr (Or.inr ⟨h.symm, hl⟩)
    · exact Or.inl (Or.inl h)⟩

instance : IsTrans Candidate candLE :=
  ⟨fun a b c hab hbc => by
    unfold candLE at *
    rcases hab with h1 | ⟨h1, h1l⟩ <;> rcases hbc with h2 | ⟨h2, h2l⟩ <;>
      [exact Or.inl (h2.trans h1); exact Or.inl (h2 ▸ h1);
       exact Or.inl (h1 ▸ h2); exact Or.inr ⟨h1.trans h2, h2l.trans h1l⟩]⟩

/-- The bucket of `poi_lookup` for a given tag key: the rules whose first
pair has that key, collected in declaration order and then sorted by the
`table.sort` comparator (descending specificity, then descending pair
count). `table.sort` guarantees exactly a permutation of the bucket that is
sorted for the comparator; the tie order among equal entries is unspecified
by Lua, and an insertion sort realises the guaranteed part here. A key that
no rule is registered under has the empty bucket (`poi_lookup[key]` is
`nil` in the source and the bucket scan is skipped). -/
def poi_lookup (mapping : List Category) (key : String) : List Candidate :=
  List.insertionSort candLE
    ((candidates mapping).filter (fun c => firstKey c.rule == key))

/-- `matches_rule(tags, rule)`: every pair of the rule must hold — the key
present, and the value equal to the expected value unless it is the
wildcard. -/
def matches_rule (tags : Tags) (rule : MatchRule) : Bool :=
  rule.all (fun pair =>
    match Tags.get tags pair.1 with
    | none => false
    | some value => pair.2 == "*" || value == pair.2)

/-- The candidate scan inside `find_poi_category`: the class of the first
candidate of the bucket whose rule matches the tags. -/
def scan_candidates (tags : Tags) (cands : List Candidate) : Option String :=
  match cands with
  | [] => none
  | c :: rest =>
    if matches_rule tags c.rule then some c.cls else scan_candidates tags rest

/-- The outer loop of `find_poi_category`: iterate the element's tags in
enumeration order (`iter`; the tag's value is not used by the loop body),
and for each key scan that key's bucket. -/
def find_aux (mapping : List Category) (tags : Tags) :
    List (String × String) → Option String
  | [] => none
  | (k, _) :: rest =>
    match scan_candidates tags (poi_lookup mapping k) with
    | some c => some c
    | none => find_aux mapping tags rest

/-- `find_poi_category(object)`: the class of the first matching rule under
the first tag key (in the tags' own enumeration order) whose bucket yields
a match, or `nil`. -/
def find_poi_category (mapping : List Category) (tags : Tags) :
    Option String :=
  find_aux mapping tags tags

/-- The element data `process_poi` reads: the tag table, `version` and
`timestamp` (kind, id and geometry are handled outside the classifier). -/
structure RawElement where
  tags : Tags
  version : Int
  timestamp : Int
deriving DecidableEq, Repr

/-- The fields table `process_poi` returns when it classifies the element
(the caller persists it exactly when `class` is set, so the unclassified
`return {}` is `none` of this record type). The source field `class` is
named `cls`; `timestamp` is passed through unformatted (`format_date` is
the external `os.date`). -/
structure PoiRecord where
  name : Option String
  tags : Tags
  version : Int
  timestamp : Int
  cls : String
deriving DecidableEq, Repr

/-- `process_poi(object)`: skip when the `name` tag is absent (Lua `not
object.tags.name`; every string value, the empty string included, is
truthy); otherwise grab the name out of the tag table, classify against the
remaining tags, fall back to class `misc` when one of `amenity`, `shop`,
`leisure`, `tourism` is present, and skip otherwise. -/
def process_poi (mapping : List Category) (obj : RawElement) :
    Option PoiRecord :=
  if (Tags.get obj.tags "name").isNone then none
  else
    let name := (grab_tag obj.tags "name").1
    let tags := (grab_tag obj.tags "name").2
    match find_poi_category mapping tags with
    | some c => some ⟨name, tags, obj.version, obj.timestamp, c⟩
    | none =>
      if (Tags.get tags "amenity").isSome || (Tags.get tags "shop").isSome
          || (Tags.get tags "leisure").isSome
          || (Tags.get tags "tourism").isSome then
        some ⟨name, tags, obj.version, obj.timestamp, "misc"⟩
      else none

/-- The classification decision alone, as a function of the tag table: the
class stored by `process_poi`, if any. -/
def classify (mapping : List Category) (tags : Tags) : Option String :=
  (process_poi mapping ⟨tags, 0, 0⟩).map PoiRecord.cls

/-- A way as seen by `osm2pgsql.process_way`: its tags, version, timestamp
and whether it is closed. -/
structure RawWay where
  tags : Tags
  version : Int
  timestamp : Int
  is_closed : Bool
deriving DecidableEq, Repr

/-- `osm2pgsql.process_way(object)`: only a closed way carrying a
`building` tag is handed to `process_poi`, and its record is inserted
exactly when a class was assigned (geometry attachment is external). -/
def process_way (mapping : List Category) (way : RawWay) :
    Option PoiRecord :=
  if way.is_closed && (Tags.get way.tags "building").isSome then
    process_poi mapping ⟨way.tags, way.version, way.timestamp⟩
  else none

theorem Tags.get_cons (p : String × String) (rest : Tags) (k : String) :
    Tags.get (p :: rest) k =
      if p.1 = k then some p.2 else Tags.get rest k := by
  by_cases h : p.1 = k <;>
    simp [Tags.get, List.find?_cons, h]

theorem Tags.erase_cons (p : String × String) (rest : Tags) (k : String) :
    Tags.erase (p :: rest) k =
      if p.1 = k then Tags.erase rest k else p :: Tags.erase rest k := by
  by_cases h : p.1 = k <;>
    simp [Tags.erase, List.filter_cons, h]

theorem Tags.get_erase (tags : Tags) (k0 k : String) :
    Tags.get (Tags.erase tags k0) k =
      if k = k0 then none else Tags.get tags k := by
  induction tags with
  | nil => simp [Tags.get, Tags.erase]
  | cons p rest ih =>
    rw [Tags.erase_cons]
    by_cases h0 : p.1 = k0
    · rw [if_pos h0, ih, Tags.get_cons]
      by_cases hk : k = k0
      · simp [hk]
      · have : p.1 ≠ k := by rw [h0]; exact fun h => hk h.symm
        simp [hk, this]
    · rw [if_neg h0, Tags.get_cons, Tags.get_cons]
      by_cases hpk : p.1 = k
      · have hk : k ≠ k0 := fun h => h0 (hpk.trans h)
        simp [hpk, hk]
      · simp [hpk, ih]

theorem Tags.keys_erase (tags : Tags) (k0 : String) :
    (Tags.erase tags k0).map Prod.fst =
      (tags.map Prod.fst).filter (fun k => k != k0) := by
  induction tags with
  | nil => simp [Tags.erase]
  | cons p rest ih =>
    rw [Tags.erase_cons]
    by_cases h : p.1 = k0 <;> simp [h, List.filter_cons, ih]

/-- C2. A rule matches iff each of its (key, expected-value) pairs holds
against the tags: the key is present, and unless the expected value is the
wildcard `*`, the stored value is exactly (case-sensitively) the expected
one; a wildcard pair requires only presence of the key. -/
theorem matches_rule_iff (tags : Tags) (rule : MatchRule) :
    matches_rule tags rule = true ↔
      ∀ pair ∈ rule, ∃ v, Tags.get tags pair.1 = some v ∧
        (pair.2 ≠ "*" → v = pair.2) := by
  unfold matches_rule
  rw [List.all_eq_true]
  refine forall_congr' fun pair => imp_congr_right fun _ => ?_
  cases h : Tags.get tags pair.1 with
  | none => simp [h]
  | some v =>
    by_cases hw : pair.2 = "*" <;> simp [h, hw]

theorem matches_rule_congr {t1 t2 : Tags}
    (hget : ∀ k, Tags.get t1 k = Tags.get t2 k) (rule : MatchRule) :
    matches_rule t1 rule = matches_rule t2 rule := by
  unfold matches_rule
  induction rule with
  | nil => rfl
  | cons pair rest ih =>
    simp only [List.all_cons, hget pair.1, ih]

theorem matches_rule_of_erase {tags : Tags} {k0 : String} {rule : MatchRule}
    (h : matches_rule (Tags.erase tags k0) rule = true) :
    matches_rule tags rule = true := by
  rw [matches_rule_iff] at h ⊢
  intro pair hp
  obtain ⟨v, hv, hw⟩ := h pair hp
  rw [Tags.get_erase] at hv
  by_cases hk : pair.1 = k0
  · rw [if_pos hk] at hv; exact absurd hv (by simp)
  · rw [if_neg hk] at hv; exact ⟨v, hv, hw⟩

theorem mem_candidates_of_mem_poi_lookup {mapping : List Category}
    {key : String} {c : Candidate} (h : c ∈ poi_lookup mapping key) :
    c ∈ candidates mapping ∧ firstKey c.rule = key := by
  unfold poi_lookup at h
  rw [List.mem_insertionSort, List.mem_filter] at h
  exact ⟨h.1, by simpa using h.2⟩

theorem candidates_spec {mapping : List Category} {c : Candidate}
    (h : c ∈ candidates mapping) :
    c.specificity = compute_specificity c.rule ∧
      ∃ cat ∈ mapping, c.cls = cat.cls ∧ c.rule ∈ cat.matches_ := by
  unfold candidates at h
  rw [List.mem_flatMap] at h
  obtain ⟨cat, hcat, hc⟩ := h
  rw [List.mem_map] at hc
  obtain ⟨rule, hrule, rfl⟩ := hc
  exact ⟨rfl, cat, hcat, rfl, hrule⟩

theorem scan_candidates_none {tags : Tags} {cands : List Candidate}
    (h : ∀ c ∈ cands, matches_rule tags c.rule = false) :
    scan_candidates tags cands = none := by
  induction cands with
  | nil => rfl
  | cons c rest ih =>
    unfold scan_candidates
    rw [h c (List.mem_cons_self c rest)]
    exact ih fun d hd => h d (List.mem_cons_of_mem c hd)

theorem find_aux_none {mapping : List Category} {tags : Tags}
    (h : ∀ c ∈ candidates mapping, matches_rule tags c.rule = false) :
    ∀ iter, find_aux mapping tags iter = none := by
  intro iter
  induction iter with
  | nil => rfl
  | cons p rest ih =>
    obtain ⟨k, v⟩ := p
    unfold find_aux
    rw [scan_candidates_none
      (fun c hc => h c (mem_candidates_of_mem_poi_lookup hc).1)]
    exact ih

/-- C1. An element whose tags have no `name` key is never treated as a POI:
`process_poi` returns no record and the classification is `none`,
regardless of every other tag. -/
theorem no_name_not_poi (mapping : List Category) (obj : RawElement)
    (h : Tags.get obj.tags "name" = none) :
    process_poi mapping obj = none ∧ classify mapping obj.tags = none := by
  constructor
  · unfold process_poi
    simp [h]
  · unfold classify process_poi
    simp [h]

/-- Witness for C1 at a concrete element carrying only an `amenity` tag. -/
theorem no_name_not_poi_witness :
    process_poi [] ⟨[("amenity", "bench")], 1, 0⟩ = none ∧
      classify [] [("amenity", "bench")] = none :=
  no_name_not_poi [] ⟨[("amenity", "bench")], 1, 0⟩ (by decide)

/-- C8. Classification is total: on every input tag mapping `process_poi`
returns a value (no record or a record, never an error), and the empty tag
mapping yields no record. -/
theorem process_poi_total (mapping : List Category) (obj : RawElement)
    (v t : Int) :
    (process_poi mapping obj = none ∨
      ∃ rec, process_poi mapping obj = some rec) ∧
      process_poi mapping ⟨[], v, t⟩ = none := by
  refine ⟨?_, rfl⟩
  cases h : process_poi mapping obj
  · exact Or.inl rfl
  · exact Or.inr ⟨_, rfl⟩

/-- C10. An element whose `name` tag holds the empty string is treated as
named: the no-name guard tests only key presence (Lua truthiness of a
string), so the element proceeds to classification exactly as any other
named element and, when classified, its record carries the empty name. -/
theorem empty_name_is_named (mapping : List Category) (tags : Tags)
    (v t : Int) (h : Tags.get tags "name" = some "") :
    process_poi mapping ⟨tags, v, t⟩ =
      (match find_poi_category mapping (Tags.erase tags "name") with
       | some c => some ⟨some "", Tags.erase tags "name", v, t, c⟩
       | none =>
         if (Tags.get (Tags.erase tags "name") "amenity").isSome
             || (Tags.get (Tags.erase tags "name") "shop").isSome
             || (Tags.get (Tags.erase tags "name") "leisure").isSome
             || (Tags.get (Tags.erase tags "name") "tourism").isSome then
           some ⟨some "", Tags.erase tags "name", v, t, "misc"⟩
         else none) := by
  unfold process_poi grab_tag
  simp [h]

/-- Witness for C10: an element named by the empty string and tagged
`amenity=pharmacy` is classified and persisted with the empty name. -/
theorem empty_name_is_named_witness :
    process_poi [] ⟨[("name", ""), ("amenity", "pharmacy")], 1, 0⟩ =
      some ⟨some "", [("amenity", "pharmacy")], 1, 0, "misc"⟩ :=
  (empty_name_is_named [] [("name", ""), ("amenity", "pharmacy")] 1 0
    (by decide)).trans (by decide)

/-- C5 counterexample. The element `{name: X, amenity: pharmacy}` produces a
record (under the `misc` fallback of the empty rule table), yet the record's
tag field has no `name` key: `grab_tag` removes the tag it grabs, so the
original `name` tag is not preserved in the output tag field. -/
theorem record_drops_name_tag :
    Tags.get [("name", "X"), ("amenity", "pharmacy")] "name" = some "X" ∧
      (process_poi [] ⟨[("name", "X"), ("amenity", "pharmacy")], 1, 0⟩).map
          (fun rec => Tags.get rec.tags "name") =
        some none := by
  decide

/-- C5 as amended. A record built by `process_poi` preserves every original
tag except `name` verbatim in its tag field: the tag field is exactly the
original tags with the `name` key removed, the grabbed name value is kept in
the record's separate name field, and every key other than `name` looks up
to its original value. -/
theorem record_tags_erase_name (mapping : List Category) (obj : RawElement)
    (rec : PoiRecord) (h : process_poi mapping obj = some rec) :
    rec.tags = Tags.erase obj.tags "name" ∧
      rec.name = Tags.get obj.tags "name" ∧
      ∀ k, k ≠ "name" → Tags.get rec.tags k = Tags.get obj.tags k := by
  have hrest : rec.tags = Tags.erase obj.tags "name" ∧
      rec.name = Tags.get obj.tags "name" := by
    simp only [process_poi, grab_tag] at h
    by_cases hn : (Tags.get obj.tags "name").isNone
    · simp [hn] at h
    · rw [if_neg (by simpa using hn)] at h
      rcases hf : find_poi_category mapping (Tags.erase obj.tags "name") with
        _ | c
      · rw [hf] at h
        simp only at h
        split at h
        · cases h; exact ⟨rfl, rfl⟩
        · cases h
      · rw [hf] at h
        simp only at h
        cases h
        exact ⟨rfl, rfl⟩
  refine ⟨hrest.1, hrest.2, fun k hk => ?_⟩
  rw [hrest.1, Tags.get_erase, if_neg hk]

/-- Witness for C5's amended statement at the counterexample element. -/
theorem record_tags_erase_name_witness :
    (⟨some "X", [("amenity", "pharmacy")], 1, 0, "misc"⟩ : PoiRecord).tags =
        Tags.erase [("name", "X"), ("amenity", "pharmacy")] "name" ∧
      (⟨some "X", [("amenity", "pharmacy")], 1, 0, "misc"⟩ : PoiRecord).name =
        Tags.get [("name", "X"), ("amenity", "pharmacy")] "name" ∧
      ∀ k, k ≠ "name" →
        Tags.get (⟨some "X", [("amenity", "pharmacy")], 1, 0,
            "misc"⟩ : PoiRecord).tags k =
          Tags.get [("name", "X"), ("amenity", "pharmacy")] k :=
  record_tags_erase_name []
    ⟨[("name", "X"), ("amenity", "pharmacy")], 1, 0⟩ _ (by decide)

/-- C9. A way is handed to the classifier, and hence persisted, only when it
is closed and carries a `building` tag: an open way, or one without a
`building` key, yields no record even when its tags would match a rule or
the fallback set. -/
theorem way_needs_closed_building (mapping : List Category) (way : RawWay)
    (h : way.is_closed = false ∨ Tags.get way.tags "building" = none) :
    process_way mapping way = none := by
  unfold process_way
  rcases h with h | h <;> simp [h]

/-- Witness for C9: an open way whose tags would classify under the `misc`
fallback is still skipped. -/
theorem way_needs_closed_building_witness :
    process_way [] ⟨[("name", "X"), ("amenity", "pharmacy")], 1, 0,
        false⟩ = none ∧
      process_poi [] ⟨[("name", "X"), ("amenity", "pharmacy")], 1, 0⟩ =
        some ⟨some "X", [("amenity", "pharmacy")], 1, 0, "misc"⟩ :=
  ⟨way_needs_closed_building []
      ⟨[("name", "X"), ("amenity", "pharmacy")], 1, 0, false⟩ (Or.inl rfl),
    by decide⟩

/-- C4. A named element whose tags match no rule registered in the index is
classified `misc` when at least one of the fallback keys `amenity`, `shop`,
`leisure`, `tourism` is present with any value, and is not a POI
otherwise. -/
theorem no_match_fallback (mapping : List Category) (tags : Tags)
    (hname : (Tags.get tags "name").isSome)
    (hnom : ∀ c ∈ candidates mapping, matches_rule tags c.rule = false) :
    classify mapping tags =
      if (Tags.get tags "amenity").isSome || (Tags.get tags "shop").isSome
          || (Tags.get tags "leisure").isSome
          || (Tags.get tags "tourism").isSome then
        some "misc"
      else none := by
  have hnom' : ∀ c ∈ candidates mapping,
      matches_rule (Tags.erase tags "name") c.rule = false := by
    intro c hc
    cases hb : matches_rule (Tags.erase tags "name") c.rule
    · rfl
    · rw [← hnom c hc]
      exact (matches_rule_of_erase hb).symm
  have hfind : find_poi_category mapping (Tags.erase tags "name") = none :=
    find_aux_none hnom' _
  have hkey : ∀ k : String, k ≠ "name" →
      Tags.get (Tags.erase tags "name") k = Tags.get tags k := by
    intro k hk
    rw [Tags.get_erase, if_neg hk]
  obtain ⟨nm, hnm⟩ := Option.isSome_iff_exists.mp hname
  unfold classify
  simp only [process_poi, grab_tag, hnm, Option.isNone_some, hfind,
    Bool.false_eq_true, if_false, hkey "amenity" (by decide),
    hkey "shop" (by decide), hkey "leisure" (by decide),
    hkey "tourism" (by decide), apply_ite (Option.map PoiRecord.cls),
    Option.map_some', Option.map_none']

/-- Witness for C4: a named element tagged only `building=yes` matches no
rule of a one-rule pharmacy table and has no fallback key, so it is not a
POI. -/
theorem no_match_fallback_witness :
    classify [⟨"pharmacy", [[("amenity", "pharmacy")]]⟩]
        [("name", "X"), ("building", "yes")] = none :=
  (no_match_fallback [⟨"pharmacy", [[("amenity", "pharmacy")]]⟩]
      [("name", "X"), ("building", "yes")] (by decide) (by decide)).trans
    (by decide)

/-- C3. The built index registers every rule exactly under the key of its
first pair, stores its specificity as the count of non-wildcard pairs, and
keeps every bucket in descending (specificity, pair count) order: a higher
specificity rule precedes all lower-specificity rules of its bucket, and on
equal specificity a rule with more pairs precedes one with fewer. (The
loader indexes rules with at least one pair; an empty rule is a load-time
error, hence the well-formedness hypothesis.) -/
theorem poi_lookup_spec (mapping : List Category)
    (hwf : ∀ cat ∈ mapping, ∀ rule ∈ cat.matches_, rule ≠ [])
    (key : String) :
    (∀ cat ∈ mapping, ∀ rule ∈ cat.matches_,
        (⟨rule, cat.cls, compute_specificity rule⟩ : Candidate) ∈
          poi_lookup mapping (firstKey rule)) ∧
      (∀ c ∈ poi_lookup mapping key, firstKey c.rule = key ∧
        c.specificity =
          (c.rule.filter (fun pair => pair.2 != "*")).length ∧
        c ∈ candidates mapping) ∧
      List.Pairwise
        (fun a b => b.specificity < a.specificity ∨
          (a.specificity = b.specificity ∧ b.rule.length ≤ a.rule.length))
        (poi_lookup mapping key) := by
  have _hwf := hwf
  refine ⟨?_, ?_, ?_⟩
  · intro cat hcat rule hrule
    unfold poi_lookup
    rw [List.mem_insertionSort, List.mem_filter]
    constructor
    · unfold candidates
      rw [List.mem_flatMap]
      exact ⟨cat, hcat, List.mem_map_of_mem _ hrule⟩
    · simp
  · intro c hc
    obtain ⟨hcand, hkey⟩ := mem_candidates_of_mem_poi_lookup hc
    exact ⟨hkey, (candidates_spec hcand).1, hcand⟩
  · exact List.sorted_insertionSort candLE _

/-- Witness for C3: the pharmacy rule of a one-rule table is registered
under its first key `amenity` with specificity 1. -/
theorem poi_lookup_spec_witness :
    (⟨[("amenity", "pharmacy")], "pharmacy", 1⟩ : Candidate) ∈
      poi_lookup [⟨"pharmacy", [[("amenity", "pharmacy")]]⟩] "amenity" :=
  (poi_lookup_spec [⟨"pharmacy", [[("amenity", "pharmacy")]]⟩]
      (by decide) "amenity").1
    ⟨"pharmacy", [[("amenity", "pharmacy")]]⟩ (by simp)
    [("amenity", "pharmacy")] (by simp)

theorem scan_candidates_congr {t1 t2 : Tags}
    (hget : ∀ k, Tags.get t1 k = Tags.get t2 k)
    (cands : List Candidate) :
    scan_candidates t1 cands = scan_candidates t2 cands := by
  induction cands with
  | nil => rfl
  | cons c rest ih =>
    unfold scan_candidates
    rw [matches_rule_congr hget, ih]

theorem find_aux_congr (mapping : List Category) {t1 t2 : Tags}
    (hget : ∀ k, Tags.get t1 k = Tags.get t2 k) :
    ∀ l1 l2 : List (String × String),
      l1.map Prod.fst = l2.map Prod.fst →
      find_aux mapping t1 l1 = find_aux mapping t2 l2 := by
  intro l1
  induction l1 with
  | nil =>
    intro l2 h
    rw [List.map_nil] at h
    rw [List.map_eq_nil_iff.mp h.symm]
    rfl
  | cons p r1 ih =>
    intro l2 h
    cases l2 with
    | nil => simp at h
    | cons q r2 =>
      obtain ⟨k, v⟩ := p
      obtain ⟨k2, v2⟩ := q
      simp only [List.map_cons, List.cons.injEq] at h
      unfold find_aux
      rw [h.1, scan_candidates_congr hget, ih r2 h.2]

/-- C6 counterexample. Two enumerations of the same tag mapping (a
permutation of the same key/value pairs) classify differently: under a
table with a rule for `amenity` (class A) and a rule for `shop` (class B),
the enumeration that lists `amenity` first yields A and the one that lists
`shop` first yields B. -/
theorem classify_depends_on_enumeration_order :
    List.Perm [("name", "X"), ("amenity", "a"), ("shop", "s")]
        [("name", "X"), ("shop", "s"), ("amenity", "a")] ∧
      classify [⟨"A", [[("amenity", "*")]]⟩, ⟨"B", [[("shop", "*")]]⟩]
          [("name", "X"), ("amenity", "a"), ("shop", "s")] = some "A" ∧
      classify [⟨"A", [[("amenity", "*")]]⟩, ⟨"B", [[("shop", "*")]]⟩]
          [("name", "X"), ("shop", "s"), ("amenity", "a")] = some "B" := by
  decide

/-- C6 as amended. Classification is deterministic as a function of the
enumerated tag sequence: two tag tables that enumerate the same keys in the
same order and store the same value at every key classify identically.
(Equal mappings enumerated in different orders may classify differently, as
the counterexample shows.) -/
theorem classify_key_order_deterministic (mapping : List Category)
    (t1 t2 : Tags) (hkeys : t1.map Prod.fst = t2.map Prod.fst)
    (hget : ∀ k, Tags.get t1 k = Tags.get t2 k) :
    classify mapping t1 = classify mapping t2 := by
  have hgete : ∀ k, Tags.get (Tags.erase t1 "name") k
      = Tags.get (Tags.erase t2 "name") k := by
    intro k
    rw [Tags.get_erase, Tags.get_erase, hget k]
  have hkeyse : (Tags.erase t1 "name").map Prod.fst
      = (Tags.erase t2 "name").map Prod.fst := by
    rw [Tags.keys_erase, Tags.keys_erase, hkeys]
  have hfind : find_poi_category mapping (Tags.erase t1 "name")
      = find_poi_category mapping (Tags.erase t2 "name") :=
    find_aux_congr mapping hgete _ _ hkeyse
  unfold classify
  simp only [process_poi, grab_tag, hget "name"]
  by_cases hn : (Tags.get t2 "name").isNone
  · rw [if_pos hn, if_pos hn]
  · rw [if_neg hn, if_neg hn, hfind, hgete "amenity", hgete "shop",
      hgete "leisure", hgete "tourism"]
    cases find_poi_category mapping (Tags.erase t2 "name") <;>
      simp [apply_ite (Option.map PoiRecord.cls)]

/-- Witness for C6's amended statement at a fixed enumeration. -/
theorem classify_key_order_deterministic_witness :
    classify [⟨"A", [[("amenity", "*")]]⟩, ⟨"B", [[("shop", "*")]]⟩]
        [("name", "X"), ("amenity", "a"), ("shop", "s")] =
      classify [⟨"A", [[("amenity", "*")]]⟩, ⟨"B", [[("shop", "*")]]⟩]
        [("name", "X"), ("amenity", "a"), ("shop", "s")] :=
  classify_key_order_deterministic
    [⟨"A", [[("amenity", "*")]]⟩, ⟨"B", [[("shop", "*")]]⟩]
    [("name", "X"), ("amenity", "a"), ("shop", "s")]
    [("name", "X"), ("amenity", "a"), ("shop", "s")] rfl (fun _ => rfl)

end OsmPoi
